import Mathlib

/-
Verification of the build-variable resolution engine of `makei`
(`makei/build.py` and `makei/const.py`), via a shallow embedding:
strings are `List Char`, relative directory paths are `List String`
(the root `Path('.')` is `[]`), and the filesystem inputs that each
routine consults are passed explicitly.
-/

set_option maxHeartbeats 1000000

/-! ## Basic string machinery (Python `str` operations on `List Char`) -/

/-- Python `s.startswith(p)` on character lists. -/
def beginsWith : List Char → List Char → Bool
  | [], _ => true
  | _ :: _, [] => false
  | a :: p, b :: s => a == b && beginsWith p s

/-- Whitespace characters stripped by Python `str.rstrip()` (ASCII subset;
the repository's rule files are ASCII). -/
def isPySpace (c : Char) : Bool :=
  c == ' ' || c == '\t' || c == '\n' || c == '\r' || c == '\x0b' || c == '\x0c'

/-- Python `line.rstrip()`: remove trailing whitespace. -/
def rstrip (l : List Char) : List Char :=
  (l.reverse.dropWhile isPySpace).reverse

/-- Python `s.replace(p, '')` for a non-empty pattern `p`: scan left to
right, removing each (non-overlapping) occurrence of `p`.  The `Nat`
argument is fuel; since every step consumes at least one character,
`s.length` fuel is always enough (see `pyRemove`). -/
def pyRemoveFuel (p : List Char) : Nat → List Char → List Char
  | 0, s => s
  | _ + 1, [] => []
  | n + 1, c :: s =>
    if p ≠ [] ∧ beginsWith p (c :: s) then
      pyRemoveFuel p n ((c :: s).drop p.length)
    else
      c :: pyRemoveFuel p n s

/-- Python `s.replace(p, '')` (for the non-empty patterns used here). -/
def pyRemove (p s : List Char) : List Char :=
  pyRemoveFuel p s.length s

/-- Does `p` occur as a contiguous segment of `s`?  (Python `p in s`.) -/
def occursIn (p : List Char) : List Char → Bool
  | [] => beginsWith p []
  | c :: s => beginsWith p (c :: s) || occursIn p s

theorem beginsWith_iff (p : List Char) : ∀ s, beginsWith p s = true ↔ ∃ t, s = p ++ t := by
  induction p with
  | nil =>
    intro s
    simp [beginsWith]
  | cons a p ih =>
    intro s
    cases s with
    | nil =>
      simp [beginsWith]
    | cons b s =>
      simp only [beginsWith, Bool.and_eq_true, beq_iff_eq, ih]
      constructor
      · rintro ⟨rfl, t, rfl⟩
        exact ⟨t, rfl⟩
      · rintro ⟨t, h⟩
        cases h
        exact ⟨rfl, t, rfl⟩

theorem occursIn_iff (p : List Char) :
    ∀ s, occursIn p s = true ↔ ∃ u v, s = u ++ p ++ v := by
  intro s
  induction s with
  | nil =>
    simp only [occursIn, beginsWith_iff]
    constructor
    · rintro ⟨t, h⟩
      exact ⟨[], t, by simpa using h⟩
    · rintro ⟨u, v, h⟩
      have h' : u ++ p ++ v = [] := h.symm
      rcases List.append_eq_nil.1 h' with ⟨h1, rfl⟩
      rcases List.append_eq_nil.1 h1 with ⟨rfl, rfl⟩
      exact ⟨[], rfl⟩
  | cons c s ih =>
    simp only [occursIn, Bool.or_eq_true, beginsWith_iff, ih]
    constructor
    · rintro (⟨t, h⟩ | ⟨u, v, h⟩)
      · exact ⟨[], t, by simpa using h⟩
      · exact ⟨c :: u, v, by simp [h]⟩
    · rintro ⟨u, v, h⟩
      cases u with
      | nil =>
        exact Or.inl ⟨v, by simpa using h⟩
      | cons x u =>
        simp only [List.cons_append] at h
        cases h
        exact Or.inr ⟨u, v, rfl⟩

/-- If `p` does not occur in `s`, removal leaves `s` unchanged. -/
theorem pyRemoveFuel_of_not_occurs (p : List Char) :
    ∀ n s, occursIn p s = false → pyRemoveFuel p n s = s := by
  intro n
  induction n with
  | zero =>
    intro s _
    rfl
  | succ n ih =>
    intro s hs
    cases s with
    | nil =>
      rfl
    | cons c s =>
      simp only [occursIn, Bool.or_eq_false_iff] at hs
      rw [pyRemoveFuel, if_neg, ih s hs.2]
      rintro ⟨-, hb⟩
      rw [hs.1] at hb
      exact Bool.false_ne_true hb

theorem pyRemove_of_not_occurs (p s : List Char) (h : occursIn p s = false) :
    pyRemove p s = s :=
  pyRemoveFuel_of_not_occurs p s.length s h

/-! ## `makei/const.py`: the mapping tables -/

def TARGET_GROUPS : List String :=
  ["TRG", "DTA", "SQL", "BNDD", "PF", "LF", "DSPF", "PRTF", "CMD", "SQL",
   "MODULE", "SRVPGM", "PGM", "MENU", "PNLGRP", "QMQRY", "WSCST", "MSG"]

def FILE_TARGETGROUPS_MAPPING : List (String × String) :=
  [("PGM.SQLRPGLE", "PGM"), ("PGM.RPGLE", "PGM"), ("PGM.CLLE", "PGM"),
   ("PGM.C", "PGM"), ("CMDSRC", "CMD"), ("DSPF", "DSPF"), ("LF", "LF"),
   ("PF", "PF"), ("PRTF", "PRTF"), ("FILE", "PF"), ("MENUSRC", "MENU"),
   ("C", "MODULE"), ("RPGLE", "MODULE"), ("CLLE", "MODULE"),
   ("SQLC", "MODULE"), ("SQLRPGLE", "MODULE"), ("MODULE", "PGM"),
   ("CBL", "PGM"), ("CBLLE", "PGM"), ("RPG", "PGM"), ("ILEPGM", "PGM"),
   ("PNLGRPSRC", "PNLGRP"), ("SQL", "QMQRY"), ("BND", "SRVPGM"),
   ("ILESRVPGM", "SRVPGM"), ("BNDDIR", "BNDD"), ("DTA", "DTA"),
   ("DTAARA", "DTA"), ("SYSTRG", "TRG"), ("SQLPRC", "SQL"),
   ("TABLE", "SQL"), ("VIEW", "SQL"), ("SQLSEQ", "SQL"), ("SQLUDF", "SQL"),
   ("SQLTRG", "SQL"), ("MSGF", "MSG"), ("WSCSTSRC", "WSCST")]

def TARGET_TARGETGROUPS_MAPPING : List (String × String) :=
  [("CMD", "CMD"), ("FILE", "PF"), ("MENU", "MENU"), ("MODULE", "MODULE"),
   ("PGM", "PGM"), ("PNLGRP", "PNLGRP"), ("QMQRY", "QMQRY"),
   ("BNDD", "BNDD"), ("DTA", "DTA"), ("PGM", "PGM"), ("DTAARA", "SQL"),
   ("SRVPGM", "SRVPGM"), ("MSGF", "MSG"), ("WSCST", "WSCST"),
   ("TRG", "TRG")]

/-- C10: every value of both token-lookup tables is a member of the closed
set `TARGET_GROUPS`, so extension-token and target-type-token lookups never
produce a target group outside that set. -/
theorem c10_mapping_closure :
    (FILE_TARGETGROUPS_MAPPING.all fun e => TARGET_GROUPS.contains e.2) = true ∧
    (TARGET_TARGETGROUPS_MAPPING.all fun e => TARGET_GROUPS.contains e.2) = true := by
  constructor <;> rfl

/-! ## `BuildEnv._post_make`: event-log normalization (C4)

The code runs, for every event file's content `line`:
`line.replace(f'{Path.cwd()}/', '')`. -/

/-- One normalization pass over one event file's text: remove every
occurrence of the absolute source-root path `cwd` followed by `'/'`. -/
def normalizeEventText (cwd s : List Char) : List Char :=
  pyRemove (cwd ++ ['/']) s

/-- C4 fails as stated: with source root `/a`, normalizing the content
`//a/a/` once yields `/a/` (removing the single occurrence of `/a/` glues
the surrounding text into a fresh occurrence), and normalizing twice
yields the empty text, so one pass and two passes differ. -/
theorem c4_counterexample :
    ¬ (normalizeEventText ('/' :: 'a' :: []) (normalizeEventText ('/' :: 'a' :: []) ('/' :: '/' :: 'a' :: '/' :: 'a' :: '/' :: []))
       = normalizeEventText ('/' :: 'a' :: []) ('/' :: '/' :: 'a' :: '/' :: 'a' :: '/' :: [])) := by
  decide

/-- C4 amended: normalizing twice equals normalizing once whenever the
once-normalized text no longer contains the root-prefix pattern (removal
can splice together a new occurrence of the pattern, so idempotence is
conditional on the pattern being absent from the first pass's output). -/
theorem c4_amended_idempotent (cwd s : List Char)
    (h : occursIn (cwd ++ ['/']) (normalizeEventText cwd s) = false) :
    normalizeEventText cwd (normalizeEventText cwd s) = normalizeEventText cwd s :=
  pyRemove_of_not_occurs _ _ h

theorem c4_amended_idempotent_witness :
    occursIn (('/' :: 'a' :: []) ++ ['/'])
        (normalizeEventText ('/' :: 'a' :: []) ('/' :: 'a' :: '/' :: 'x' :: '.' :: 'c' :: [])) = false ∧
    normalizeEventText ('/' :: 'a' :: [])
        (normalizeEventText ('/' :: 'a' :: []) ('/' :: 'a' :: '/' :: 'x' :: '.' :: 'c' :: []))
      = normalizeEventText ('/' :: 'a' :: []) ('/' :: 'a' :: '/' :: 'x' :: '.' :: 'c' :: []) :=
  ⟨by decide, c4_amended_idempotent _ _ (by decide)⟩

/-! ## `BuildEnv.generate_make_cmd` and the `__init__` defaults (C9) -/

/-- Python `targets if targets is not None else ["all"]`. -/
def init_targets (targets : Option (List (List Char))) : List (List Char) :=
  targets.getD [['a', 'l', 'l']]

/-- Python `make_options if make_options else ""` (empty and absent both
become the empty string). -/
def init_make_options (mo : Option (List Char)) : List Char :=
  match mo with
  | none => []
  | some s => if s ≠ [] then s else []

/-- Python `self.bob_path / 'mk' / 'Makefile'`. -/
def bob_makefile_of (bob_path : List Char) : List Char :=
  bob_path ++ "/mk/Makefile".toList

/-- Python `' '.join(self.targets)`. -/
def join_targets (targets : List (List Char)) : List Char :=
  List.intercalate [' '] targets

/-- `BuildEnv.generate_make_cmd`, over explicit field values. -/
def generate_make_cmd (build_vars_path bob_path bob_makefile make_options : List Char)
    (targets : List (List Char)) : List Char :=
  let cmd1 := "make -k BUILDVARSMKPATH=\"".toList ++ build_vars_path
      ++ "\" -k BOB=\"".toList ++ bob_path ++ "\" -f \"".toList ++ bob_makefile ++ "\"".toList
  let cmd2 := if make_options ≠ [] then cmd1 ++ [' '] ++ make_options else cmd1
  cmd2 ++ [' '] ++ join_targets targets

/-- The options segment as the claim describes it: appended only when the
free-form make options are non-empty. -/
def optionsSegment (make_options : List Char) : List Char :=
  if make_options = [] then [] else [' '] ++ make_options

/-- C9: the generated make invocation contains the variable-file path, the
engine root path and the engine's entry makefile path; it equals the fixed
base command followed by the options segment (present only for non-empty
options) and finally a space and the space-joined target list; and when no
target list is supplied the `__init__` default is exactly `["all"]`. -/
theorem c9_make_cmd (vp bp mo : List Char) (ts : List (List Char)) :
    occursIn vp (generate_make_cmd vp bp (bob_makefile_of bp) mo ts) = true ∧
    occursIn bp (generate_make_cmd vp bp (bob_makefile_of bp) mo ts) = true ∧
    occursIn (bob_makefile_of bp) (generate_make_cmd vp bp (bob_makefile_of bp) mo ts) = true ∧
    generate_make_cmd vp bp (bob_makefile_of bp) mo ts
      = "make -k BUILDVARSMKPATH=\"".toList ++ vp ++ "\" -k BOB=\"".toList ++ bp
        ++ "\" -f \"".toList ++ bob_makefile_of bp ++ "\"".toList
        ++ optionsSegment mo ++ [' '] ++ join_targets ts ∧
    init_targets none = [['a', 'l', 'l']] := by
  have heq : generate_make_cmd vp bp (bob_makefile_of bp) mo ts
      = "make -k BUILDVARSMKPATH=\"".toList ++ vp ++ "\" -k BOB=\"".toList ++ bp
        ++ "\" -f \"".toList ++ bob_makefile_of bp ++ "\"".toList
        ++ optionsSegment mo ++ [' '] ++ join_targets ts := by
    by_cases h : mo = [] <;>
      simp [generate_make_cmd, optionsSegment, h, List.append_assoc]
  refine ⟨?_, ?_, ?_, heq, rfl⟩
  · rw [heq]
    exact (occursIn_iff _ _).2 ⟨"make -k BUILDVARSMKPATH=\"".toList,
      "\" -k BOB=\"".toList ++ bp ++ "\" -f \"".toList ++ bob_makefile_of bp ++ "\"".toList
        ++ optionsSegment mo ++ [' '] ++ join_targets ts, by simp [List.append_assoc]⟩
  · rw [heq]
    exact (occursIn_iff _ _).2 ⟨"make -k BUILDVARSMKPATH=\"".toList ++ vp ++ "\" -k BOB=\"".toList,
      "\" -f \"".toList ++ bob_makefile_of bp ++ "\"".toList
        ++ optionsSegment mo ++ [' '] ++ join_targets ts, by simp [List.append_assoc]⟩
  · rw [heq]
    exact (occursIn_iff _ _).2 ⟨"make -k BUILDVARSMKPATH=\"".toList ++ vp
      ++ "\" -k BOB=\"".toList ++ bp ++ "\" -f \"".toList,
      "\"".toList ++ optionsSegment mo ++ [' '] ++ join_targets ts, by simp [List.append_assoc]⟩

/-! ## `BuildEnv._create_build_vars`: the rule scanner (C2, C7)

For each line of a `Rules.mk` file the code runs
`line = line.rstrip()` and then
`if line and not line.startswith("#") and not "=" in line and
    not line.startswith((' ', '\t')):
  file.write(f"{line.split(':')[0]}_d := {rules_mk.parents[0].absolute()}\n")`. -/

/-- One line of a rule file, as the code classifies and extracts it:
`some (identifier, dir)` when the line contributes a target-ownership
assignment for the scanned file's directory `dir`, `none` otherwise. -/
def lineTarget (dir line : List Char) : Option (List Char × List Char) :=
  let s := rstrip line
  if s ≠ [] ∧ beginsWith ['#'] s = false ∧ occursIn ['='] s = false ∧
      beginsWith [' '] s = false ∧ beginsWith ['\t'] s = false then
    some (s.takeWhile (fun c => !(c == ':')), dir)
  else
    none

/-- Scanning one rule file: the ownership entries its lines contribute,
in line order. -/
def scanRules (dir : List Char) (lines : List (List Char)) :
    List (List Char × List Char) :=
  lines.filterMap (lineTarget dir)

/-- The claim's wording of a target declaration line, as a predicate on the
already-trimmed line: non-empty, does not start with `'#'`, does not start
with a space or tab, and contains no `'='`. -/
def declLine (s : List Char) : Bool :=
  !s.isEmpty && !(s.head? == some '#') && !(s.head? == some ' ') &&
    !(s.head? == some '\t') && !(s.contains '=')

theorem occursIn_singleton (a : Char) : ∀ s, occursIn [a] s = s.contains a := by
  intro s
  induction s with
  | nil => rfl
  | cons c s ih =>
    simp only [occursIn, beginsWith, Bool.and_true, ih, List.contains_cons]

theorem lineTarget_condition (s : List Char) :
    (s ≠ [] ∧ beginsWith ['#'] s = false ∧ occursIn ['='] s = false ∧
      beginsWith [' '] s = false ∧ beginsWith ['\t'] s = false) ↔ declLine s = true := by
  cases s with
  | nil => simp [declLine]
  | cons c s =>
    simp only [ne_eq, reduceCtorEq, not_false_eq_true, true_and, beginsWith,
      Bool.and_true, occursIn_singleton, declLine, List.isEmpty_cons,
      Bool.not_false, Bool.true_and, List.head?_cons, Bool.and_eq_true,
      Bool.not_eq_eq_eq_not, Bool.not_true, beq_eq_false_iff_ne,
      Option.some.injEq]
    constructor
    · rintro ⟨h1, h2, h3, h4⟩
      exact ⟨⟨⟨fun h => h1 h.symm, fun h => h3 h.symm⟩, fun h => h4 h.symm⟩, h2⟩
    · rintro ⟨⟨⟨h1, h3⟩, h4⟩, h2⟩
      exact ⟨fun h => h1 h.symm, h2, fun h => h3 h.symm, fun h => h4 h.symm⟩

theorem lineTarget_eq (dir line : List Char) :
    lineTarget dir line =
      if declLine (rstrip line) then
        some ((rstrip line).takeWhile (fun c => !(c == ':')), dir)
      else none := by
  unfold lineTarget
  by_cases h : declLine (rstrip line) = true
  · rw [if_pos ((lineTarget_condition (rstrip line)).2 h), if_pos h]
  · rw [if_neg, if_neg h]
    intro hc
    exact h ((lineTarget_condition (rstrip line)).1 hc)

/-- C2: a line contributes a target identifier iff, after trimming
trailing whitespace, it is non-empty, does not start with `'#'`, does not
start with a space or tab, and contains no `'='`; the identifier is
everything before the first `':'` of the trimmed line, owned by the
scanned directory.  Moreover, on the file `FOO: bar.c` / `  recipe line` /
`# comment` / `VAR = value` in directory `/proj/D`, exactly `FOO` is
extracted, owned by `/proj/D`. -/
theorem c2_rule_scanner :
    (∀ dir lines, scanRules dir lines =
      ((lines.map rstrip).filter declLine).map
        (fun s => (s.takeWhile (fun c => !(c == ':')), dir))) ∧
    scanRules "/proj/D".toList
        ["FOO: bar.c".toList, "  recipe line".toList, "# comment".toList,
         "VAR = value".toList]
      = [("FOO".toList, "/proj/D".toList)] := by
  constructor
  · intro dir lines
    induction lines with
    | nil => rfl
    | cons l ls ih =>
      simp only [scanRules, List.filterMap_cons, List.map_cons, List.filter_cons] at *
      rw [lineTarget_eq]
      by_cases h : declLine (rstrip l) = true
      · simp [h, ih]
      · simp only [Bool.not_eq_true] at h
        simp [h, ih]
  · decide

/-- Shared characterization of the scanner (used by several claims): the
entries are exactly the trimmed lines that pass the declaration-line test,
each mapped to (text before the first colon, scanned directory). -/
theorem scanRules_eq (dir : List Char) (lines : List (List Char)) :
    scanRules dir lines =
      ((lines.map rstrip).filter declLine).map
        (fun s => (s.takeWhile (fun c => !(c == ':')), dir)) := by
  induction lines with
  | nil => rfl
  | cons l ls ih =>
    simp only [scanRules, List.filterMap_cons, List.map_cons, List.filter_cons] at *
    rw [lineTarget_eq]
    by_cases h : declLine (rstrip l) = true
    · simp [h, ih]
    · simp only [Bool.not_eq_true] at h
      simp [h, ih]

/-- The target-ownership lines emitted by the writer, over all scanned rule
files in processing order: the code appends one `IDENT_d := dir` line per
qualifying line of each file. -/
def ruleEntries (ruleFiles : List (List Char × List (List Char))) :
    List (List Char × List Char) :=
  ruleFiles.flatMap fun rf => scanRules rf.1 rf.2

/-- The consumer's reading of the emitted assignment lines: a later
assignment to the same key overrides an earlier one. -/
def lastAssign (es : List (List Char × List Char)) (k : List Char) :
    Option (List Char) :=
  es.foldl (fun acc e => if e.1 == k then some e.2 else acc) none

theorem foldl_lastAssign (k : List Char) :
    ∀ (es : List (List Char × List Char)) (acc : Option (List Char)),
      es.foldl (fun acc e => if e.1 == k then some e.2 else acc) acc
        = match es.reverse.find? (fun e => e.1 == k) with
          | some e => some e.2
          | none => acc := by
  intro es
  induction es with
  | nil =>
    intro acc
    rfl
  | cons e es ih =>
    intro acc
    simp only [List.foldl_cons, ih, List.reverse_cons, List.find?_append]
    cases h : es.reverse.find? (fun e => e.1 == k) with
    | some x => simp [h, Option.or]
    | none =>
      simp only [h, Option.or, List.find?]
      cases he : (e.1 == k) <;> simp [he]


/-- C7 fails as stated: when `FOO` is declared in the rule files of the two
directories `/p/d1` and `/p/d2`, the writer emits two assignment lines
keyed by `FOO` (one per qualifying line), not exactly one. -/
theorem c7_counterexample :
    ¬ ((ruleEntries
          [("/p/d1".toList, ["FOO: a.c".toList]),
           ("/p/d2".toList, ["FOO: b.c".toList])]).countP
        (fun e => e.1 == "FOO".toList) = 1) := by
  decide

/-- C7 amended: the writer emits one assignment line per qualifying
target-declaration line (so an identifier declared in several rule files
yields one line per declaration, keyed by the identifier and mapping to the
declaring directory), and under the consumer's last-assignment-wins reading
the effective ownership of an identifier is the directory of the latest
processed declaration. -/
theorem c7_target_ownership :
    (∀ ruleFiles, (ruleEntries ruleFiles).length
        = (ruleFiles.map fun rf => (rf.2.map rstrip).countP declLine).sum) ∧
    (∀ ruleFiles k, lastAssign (ruleEntries ruleFiles) k
        = ((ruleEntries ruleFiles).reverse.find? (fun e => e.1 == k)).map
            (fun e => e.2)) := by
  constructor
  · intro ruleFiles
    induction ruleFiles with
    | nil => rfl
    | cons rf rfs ih =>
      simp only [ruleEntries, List.flatMap_cons, List.length_append, List.map_cons,
        List.sum_cons] at *
      rw [ih, scanRules_eq, List.length_map]
      simp [List.countP_eq_length_filter]
  · intro ruleFiles k
    rw [lastAssign, foldl_lastAssign]
    cases h : (ruleEntries ruleFiles).reverse.find? (fun e => e.1 == k) <;> simp [h]

/-! ## Session cleanup (`BuildEnv.__del__`, `BuildEnv.make`) (C8)

`__del__` runs `self.build_vars_path.unlink()` with no guard, while
`make` clears each log file behind an existence check:
`if (...).exists(): (...).unlink()`.  The filesystem is modelled by the
set of existing paths. -/

abbrev FsPaths := List (List Char)

/-- `pathlib.Path.unlink()` (no `missing_ok`): removes the file, raising
`FileNotFoundError` (modelled as `Except.error ()`) when it is absent. -/
def path_unlink (fs : FsPaths) (p : List Char) : Except Unit FsPaths :=
  if p ∈ fs then Except.ok (fs.erase p) else Except.error ()

/-- The log-clearing pattern of `BuildEnv.make`:
`if path.exists(): path.unlink()`. -/
def removeIfExists (fs : FsPaths) (p : List Char) : Except Unit FsPaths :=
  if p ∈ fs then path_unlink fs p else Except.ok fs

/-- `BuildEnv.__del__`: `self.build_vars_path.unlink()`, unguarded. -/
def buildEnvDel (fs : FsPaths) (p : List Char) : Except Unit FsPaths :=
  path_unlink fs p

/-- C8 fails as stated: session cleanup with the temporary variable file
already removed raises a file-not-found error, because `__del__` calls
`unlink()` without `missing_ok` and without an existence check. -/
theorem c8_counterexample :
    buildEnvDel [] "/tmp/buildvars".toList = Except.error () := by
  rfl

/-- C8 amended: clearing an absent log file is existence-guarded and
succeeds as an already-satisfied post-condition, but session cleanup of an
already-removed temporary variable file raises a file-not-found error
(which only the interpreter's finalizer handling keeps from propagating). -/
theorem c8_cleanup_errors (fs : FsPaths) (p : List Char) (h : p ∉ fs) :
    removeIfExists fs p = Except.ok fs ∧ buildEnvDel fs p = Except.error () := by
  rw [removeIfExists, if_neg h, buildEnvDel, path_unlink, if_neg h]
  exact ⟨rfl, rfl⟩

theorem c8_cleanup_errors_witness :
    removeIfExists [] "/x".toList = Except.ok [] ∧
    buildEnvDel [] "/x".toList = Except.error () :=
  c8_cleanup_errors [] "/x".toList (by decide)

/-! ## `BuildEnv.make` and `_post_make` (C5)

`make` clears the logs, calls `run_command(self.generate_make_cmd())` and
then `self._post_make()`.  `_post_make` rewrites every `*.evfevent` file
under `.evfevent` by one normalization pass.  Files are modelled as
(path-segments, content) pairs. -/

abbrev FileSys := List (List String × List Char)

/-- Is this a file that `Path(".evfevent").rglob("*.evfevent")` yields? -/
def isEvfeventFile (p : List String) : Bool :=
  (p.head? == some ".evfevent") &&
    (match p.getLast? with
     | some n => List.isSuffixOf ".evfevent".toList n.toList
     | none => false)

/-- `BuildEnv._post_make`: overwrite each event file with its normalized
content. -/
def post_make (cwd : List Char) (fs : FileSys) : FileSys :=
  fs.map fun e => if isEvfeventFile e.1 then (e.1, normalizeEventText cwd e.2) else e

/-- The two guarded log deletions at the top of `BuildEnv.make`. -/
def removeLogs (fs : FileSys) : FileSys :=
  fs.filter fun e =>
    !(e.1 == [".logs", "joblog.json"]) && !(e.1 == [".logs", "output.log"])

/-- `BuildEnv.make`.  Modelled from the spec: `run_command` (defined in
`makei/utils`, which is not among the sources here) runs the external make
engine as a blocking subprocess and returns when it exits, whatever the
exit status; it is represented by an arbitrary `engine` function from the
filesystem seen by the subprocess to an exit status and a new
filesystem. -/
def makeSession (engine : FileSys → Int × FileSys) (cwd : List Char)
    (fs : FileSys) : Int × FileSys :=
  let fs1 := removeLogs fs
  let r := engine fs1
  (r.1, post_make cwd r.2)

/-- C5: once the external engine returns, the event-log normalizer runs
regardless of the exit status — for every engine behavior and every exit
status (failing ones included), each event file in the final state is the
normalized image of the corresponding file the engine left behind, and the
exit status is passed through untouched. -/
theorem c5_post_make_always_runs (engine : FileSys → Int × FileSys)
    (cwd : List Char) (fs : FileSys) (p : List String) (content : List Char)
    (hmem : (p, content) ∈ (makeSession engine cwd fs).2)
    (hev : isEvfeventFile p = true) :
    (makeSession engine cwd fs).1 = (engine (removeLogs fs)).1 ∧
    ∃ pre, (p, pre) ∈ (engine (removeLogs fs)).2 ∧
      content = normalizeEventText cwd pre := by
  refine ⟨rfl, ?_⟩
  have hmem' : (p, content) ∈ post_make cwd (engine (removeLogs fs)).2 := hmem
  simp only [post_make, List.mem_map] at hmem'
  obtain ⟨⟨q, pre⟩, he, heq⟩ := hmem'
  by_cases hf : isEvfeventFile q = true
  · rw [if_pos hf] at heq
    obtain ⟨h1, h2⟩ := Prod.mk.injEq .. ▸ heq
    refine ⟨pre, ?_, h2.symm⟩
    rw [← h1]
    exact he
  · rw [if_neg hf] at heq
    cases heq
    exact absurd hev hf

theorem c5_post_make_always_runs_witness :
    (makeSession (fun _ => (2, [([".evfevent", "m.evfevent"], "/r/s.c 12 err".toList)]))
        "/r".toList []).1
      = ((fun (_ : FileSys) => (2, [([".evfevent", "m.evfevent"], "/r/s.c 12 err".toList)]))
          (removeLogs [])).1 ∧
    ∃ pre, ([".evfevent", "m.evfevent"], pre) ∈
        ((fun (_ : FileSys) => ((2 : Int), [([".evfevent", "m.evfevent"], "/r/s.c 12 err".toList)]))
          (removeLogs [])).2 ∧
      "s.c 12 err".toList = normalizeEventText "/r".toList pre :=
  c5_post_make_always_runs _ "/r".toList [] [".evfevent", "m.evfevent"]
    "s.c 12 err".toList (by decide) (by decide)

/-! ## `BuildEnv._create_build_vars`: config resolution (C1, C6)

The code collects `subdirs` (one per discovered `Rules.mk`), sorts them by
`len(x.parts)` (stable), seeds `dir_var_map` with
`Path('.') ↦ (iproj objlib, iproj tgtCcsid)` and then for each non-root
directory runs
`dir_var_map[path] = read_ibmi_json(path / ".ibmi.json",
                                    dir_var_map[path.parents[0]])`.
Directory paths relative to the root are segment lists; the root is `[]`;
`path.parents[0]` is `dropLast`. -/

abbrev DirPath := List String

abbrev Cfg := String × String

structure IbmiJson where
  objlib : Option String
  tgtCcsid : Option String

/-- Modelled from the spec: `read_ibmi_json` (defined in `makei/utils`,
which is not among the sources here) reads a directory-local `.ibmi.json`
override and combines it with the parent directory's resolved
`(objlib, tgtCcsid)` pair — each field independently takes the declared
override value when present and falls back to the parent's resolved value
otherwise; a missing override file inherits the parent's pair verbatim. -/
def read_ibmi_json (file : Option IbmiJson) (parent : Cfg) : Cfg :=
  match file with
  | none => parent
  | some j => (j.objlib.getD parent.1, j.tgtCcsid.getD parent.2)

/-- First-match association lookup; the resolution map is extended by
prepending, so the first match is the most recent write, as in a dict. -/
def alookup {α β : Type} [DecidableEq α] (q : α) : List (α × β) → Option β
  | [] => none
  | e :: m => if e.1 = q then some e.2 else alookup q m

/-- The sort key `len(x.parts)` of `subdirs.sort`. -/
def depthLE (a b : DirPath) : Prop := a.length ≤ b.length

instance : DecidableRel depthLE := fun a b => Nat.decLe a.length b.length

instance : IsTotal DirPath depthLE := ⟨fun a b => Nat.le_total a.length b.length⟩

instance : IsTrans DirPath depthLE := ⟨fun _ _ _ => Nat.le_trans⟩

/-- The `map_ibmi_json_var` pass over an already-sorted directory list:
the root is skipped, and each other directory's entry is computed from the
parent's entry `dir_var_map[path.parents[0]]`; a missing parent entry is
Python's `KeyError` (modelled as `none` for the whole pass). -/
def resolveSteps (env : DirPath → Option IbmiJson) :
    List DirPath → List (DirPath × Cfg) → Option (List (DirPath × Cfg))
  | [], m => some m
  | p :: l, m =>
    if p = [] then resolveSteps env l m
    else
      match alookup p.dropLast m with
      | none => none
      | some pc => resolveSteps env l ((p, read_ibmi_json (env p) pc) :: m)

/-- The resolution of `_create_build_vars`: seed the root with the project
descriptor's `(objlib, tgtCcsid)`, sort the discovered directories by
ascending depth (Python's stable `sort(key=...)`; insertion sort produces
the identical stable result) and process them in order. -/
def resolveAll (env : DirPath → Option IbmiJson) (root : Cfg)
    (dirs : List DirPath) : Option (List (DirPath × Cfg)) :=
  resolveSteps env (List.insertionSort depthLE dirs) [([], root)]

/-- An entry present before a pass and not re-processed by it survives the
pass unchanged. -/
theorem resolveSteps_preserve (env : DirPath → Option IbmiJson) :
    ∀ l m m', resolveSteps env l m = some m' →
      ∀ q c, alookup q m = some c → (q = [] ∨ q ∉ l) → alookup q m' = some c := by
  intro l
  induction l with
  | nil =>
    intro m m' hres q c hq _
    cases hres
    exact hq
  | cons p l ih =>
    intro m m' hres q c hq hcond
    have hne : q = [] ∨ q ∉ l := by
      rcases hcond with h | h
      · exact Or.inl h
      · exact Or.inr fun hql => h (List.mem_cons_of_mem p hql)
    simp only [resolveSteps] at hres
    by_cases hp : p = []
    · rw [if_pos hp] at hres
      exact ih m m' hres q c hq hne
    · rw [if_neg hp] at hres
      cases hpar : alookup p.dropLast m with
      | none =>
        rw [hpar] at hres
        cases hres
      | some pc =>
        rw [hpar] at hres
        have hpq : ¬ p = q := by
          rcases hcond with h | h
          · rw [h]; exact hp
          · intro he
            exact h (he ▸ List.mem_cons_self p l)
        refine ih _ m' hres q c ?_ hne
        simp [alookup, hpq, hq]

/-- A key never inserted by a pass stays absent. -/
theorem resolveSteps_dom (env : DirPath → Option IbmiJson) :
    ∀ l m m', resolveSteps env l m = some m' →
      ∀ q, alookup q m = none → q ∉ l → alookup q m' = none := by
  intro l
  induction l with
  | nil =>
    intro m m' hres q hq _
    cases hres
    exact hq
  | cons p l ih =>
    intro m m' hres q hq hql
    have hqp : ¬ p = q := fun h => hql (h ▸ List.mem_cons_self p l)
    have hql' : q ∉ l := fun h => hql (List.mem_cons_of_mem p h)
    simp only [resolveSteps] at hres
    by_cases hp : p = []
    · rw [if_pos hp] at hres
      exact ih m m' hres q hq hql'
    · rw [if_neg hp] at hres
      cases hpar : alookup p.dropLast m with
      | none =>
        rw [hpar] at hres
        cases hres
      | some pc =>
        rw [hpar] at hres
        refine ih _ m' hres q ?_ hql'
        simp [alookup, hqp, hq]

/-- The root's seeded entry survives every pass. -/
theorem resolveSteps_root (env : DirPath → Option IbmiJson) (l : List DirPath)
    (root : Cfg) (m : List (DirPath × Cfg))
    (hres : resolveSteps env l [([], root)] = some m) :
    alookup ([] : DirPath) m = some root :=
  resolveSteps_preserve env l _ m hres [] root (by simp [alookup]) (Or.inl rfl)

/-- In a successful depth-sorted duplicate-free pass, every processed
directory's final entry is obtained from its parent's final entry by
`read_ibmi_json`. -/
theorem resolveSteps_entry (env : DirPath → Option IbmiJson) :
    ∀ l m m', List.Sorted depthLE l → l.Nodup →
      resolveSteps env l m = some m' →
      ∀ d, d ∈ l → d ≠ [] →
        ∃ pc, alookup d.dropLast m' = some pc ∧
          alookup d m' = some (read_ibmi_json (env d) pc) := by
  intro l
  induction l with
  | nil =>
    intro m m' _ _ _ d hd
    exact absurd hd (List.not_mem_nil d)
  | cons p l ih =>
    intro m m' hsort hnd hres d hd hdne
    obtain ⟨hhead, htail⟩ := List.sorted_cons.1 hsort
    obtain ⟨hpnotin, hnd'⟩ := List.nodup_cons.1 hnd
    simp only [resolveSteps] at hres
    rcases List.mem_cons.1 hd with rfl | hdl
    · rw [if_neg hdne] at hres
      cases hpar : alookup d.dropLast m with
      | none =>
        rw [hpar] at hres
        cases hres
      | some pc =>
        rw [hpar] at hres
        have hlen : 0 < d.length := List.length_pos.2 hdne
        have hdp : ¬ d = d.dropLast := by
          intro h
          have := congrArg List.length h
          rw [List.length_dropLast] at this
          omega
        have hparnotin : d.dropLast ∉ l := by
          intro hin
          have := hhead d.dropLast hin
          rw [depthLE, List.length_dropLast] at this
          omega
        refine ⟨pc, ?_, ?_⟩
        · refine resolveSteps_preserve env l _ m' hres d.dropLast pc ?_ (Or.inr hparnotin)
          simp [alookup, hdp, hpar]
        · refine resolveSteps_preserve env l _ m' hres d _ ?_ (Or.inr hpnotin)
          simp [alookup]
    · by_cases hp : p = []
      · rw [if_pos hp] at hres
        exact ih m m' htail hnd' hres d hdl hdne
      · rw [if_neg hp] at hres
        cases hpar : alookup p.dropLast m with
        | none =>
          rw [hpar] at hres
          cases hres
        | some pc =>
          rw [hpar] at hres
          exact ih _ m' htail hnd' hres d hdl hdne

/-- A depth-sorted pass succeeds whenever the root already has an entry
and every processed non-root directory's parent either has an entry or is
itself in the list. -/
theorem resolveSteps_success (env : DirPath → Option IbmiJson) :
    ∀ l m, List.Sorted depthLE l →
      (∃ c, alookup ([] : DirPath) m = some c) →
      (∀ d, d ∈ l → d ≠ [] →
        (∃ c, alookup d.dropLast m = some c) ∨ d.dropLast ∈ l) →
      ∃ m', resolveSteps env l m = some m' := by
  intro l
  induction l with
  | nil =>
    intro m _ _ _
    exact ⟨m, rfl⟩
  | cons p l ih =>
    intro m hsort hroot hcond
    obtain ⟨hhead, htail⟩ := List.sorted_cons.1 hsort
    by_cases hp : p = []
    · simp only [resolveSteps, if_pos hp]
      refine ih m htail hroot ?_
      intro d hd hdne
      rcases hcond d (List.mem_cons_of_mem p hd) hdne with h | hpar
      · exact Or.inl h
      · rcases List.mem_cons.1 hpar with he | hl
        · rw [he, hp]
          exact Or.inl hroot
        · exact Or.inr hl
    · have hplen : 0 < p.length := List.length_pos.2 hp
      have hpc : ∃ pc, alookup p.dropLast m = some pc := by
        rcases hcond p (List.mem_cons_self p l) hp with h | hpar
        · exact h
        · rcases List.mem_cons.1 hpar with he | hl
          · exfalso
            have := congrArg List.length he
            rw [List.length_dropLast] at this
            omega
          · exfalso
            have := hhead p.dropLast hl
            rw [depthLE, List.length_dropLast] at this
            omega
      obtain ⟨pc, hpar⟩ := hpc
      simp only [resolveSteps, if_neg hp, hpar]
      refine ih _ htail ?_ ?_
      · obtain ⟨c, hc⟩ := hroot
        exact ⟨c, by simp [alookup, hp, hc]⟩
      · intro d hd hdne
        rcases hcond d (List.mem_cons_of_mem p hd) hdne with ⟨c, hc⟩ | hparm
        · by_cases hpd : p = d.dropLast
          · exact Or.inl ⟨read_ibmi_json (env p) pc, by simp [alookup, hpd]⟩
          · exact Or.inl ⟨c, by simp [alookup, hpd, hc]⟩
        · rcases List.mem_cons.1 hparm with he | hl
          · exact Or.inl ⟨read_ibmi_json (env p) pc, by simp [alookup, he]⟩
          · exact Or.inr hl

/-- The specification-level resolved map determined solely by the set of
discovered directories, the override environment and the root defaults:
the root maps to the defaults, a discovered directory cascades from its
parent, anything else is absent. -/
def specResolved (env : DirPath → Option IbmiJson) (root : Cfg)
    (dirs : List DirPath) (q : DirPath) : Option Cfg :=
  if _h : q = [] then some root
  else if q ∈ dirs then
    match specResolved env root dirs q.dropLast with
    | some pc => some (read_ibmi_json (env q) pc)
    | none => none
  else none
termination_by q.length
decreasing_by
  rw [List.length_dropLast]
  have := List.length_pos.2 _h
  omega

/-- Any successful depth-sorted duplicate-free processing order of the
discovered directories produces a map whose every lookup equals
`specResolved` — the order-independent cascade. -/
theorem resolveSteps_lookup_eq_spec (env : DirPath → Option IbmiJson)
    (root : Cfg) (dirs l : List DirPath) (m : List (DirPath × Cfg))
    (hperm : l.Perm dirs) (hsort : List.Sorted depthLE l) (hnd : dirs.Nodup)
    (hres : resolveSteps env l [([], root)] = some m) :
    ∀ q, alookup q m = specResolved env root dirs q := by
  have main : ∀ n (q : DirPath), q.length ≤ n →
      alookup q m = specResolved env root dirs q := by
    intro n
    induction n with
    | zero =>
      intro q hq
      have h0 : q = [] := List.length_eq_zero.1 (Nat.le_zero.1 hq)
      subst h0
      rw [resolveSteps_root env l root m hres]
      rw [specResolved]
      rfl
    | succ n ih =>
      intro q hq
      by_cases h0 : q = []
      · subst h0
        rw [resolveSteps_root env l root m hres]
        rw [specResolved]
        rfl
      · by_cases hmem : q ∈ dirs
        · have hql : q ∈ l := hperm.mem_iff.2 hmem
          have hlnd : l.Nodup := hperm.nodup_iff.2 hnd
          obtain ⟨pc, hpar, hqm⟩ :=
            resolveSteps_entry env l _ m hsort hlnd hres q hql h0
          have hplen : q.dropLast.length ≤ n := by
            rw [List.length_dropLast]
            omega
          have hspecpar : specResolved env root dirs q.dropLast = some pc := by
            rw [← ih q.dropLast hplen]
            exact hpar
          rw [hqm]
          conv_rhs => rw [specResolved]
          rw [dif_neg h0, if_pos hmem, hspecpar]
        · have hnotl : q ∉ l := fun h => hmem (hperm.mem_iff.1 h)
          have hseed : alookup q [(([] : DirPath), root)] = none := by
            simp [alookup]
            exact h0
          rw [resolveSteps_dom env l _ m hres q hseed hnotl]
          rw [specResolved, dif_neg h0, if_neg hmem]
  exact fun q => main q.length q le_rfl

/-- C1: in a successful resolution over duplicate-free discovered
directories, the root's entry is the project descriptor's
`(objlib, tgtCcsid)`; a non-root discovered directory with no override
file resolves exactly to its parent's resolved entry; and with an override
file present, each of the two fields independently takes the declared
value when present and the parent's resolved value otherwise. -/
theorem c1_cascade_correctness (env : DirPath → Option IbmiJson) (root : Cfg)
    (dirs : List DirPath) (m : List (DirPath × Cfg)) (d : DirPath)
    (hres : resolveAll env root dirs = some m) (hnd : dirs.Nodup)
    (hd : d ∈ dirs) (hdne : d ≠ []) :
    alookup ([] : DirPath) m = some root ∧
    (env d = none → alookup d m = alookup d.dropLast m) ∧
    (∀ j, env d = some j → ∃ pc, alookup d.dropLast m = some pc ∧
      alookup d m = some (j.objlib.getD pc.1, j.tgtCcsid.getD pc.2)) := by
  rw [resolveAll] at hres
  have hsort := List.sorted_insertionSort depthLE dirs
  have hperm := List.perm_insertionSort depthLE dirs
  have hlnd : (List.insertionSort depthLE dirs).Nodup := hperm.nodup_iff.2 hnd
  have hdl : d ∈ List.insertionSort depthLE dirs := hperm.mem_iff.2 hd
  obtain ⟨pc, hpar, hdm⟩ :=
    resolveSteps_entry env (List.insertionSort depthLE dirs) _ m hsort hlnd hres d hdl hdne
  refine ⟨resolveSteps_root env _ root m hres, ?_, ?_⟩
  · intro hnone
    rw [hdm, hpar, hnone]
    rfl
  · intro j hj
    refine ⟨pc, hpar, ?_⟩
    rw [hdm, hj]
    rfl

def exEnv : DirPath → Option IbmiJson :=
  fun p => if p = ["sub1", "sub2"] then some ⟨none, some "1208"⟩ else none

def exDirs : List DirPath := [["sub1"], ["sub1", "sub2"]]

def exMap : List (DirPath × Cfg) :=
  [(["sub1", "sub2"], ("LIBA", "1208")), (["sub1"], ("LIBA", "37")),
   ([], ("LIBA", "37"))]

theorem c1_cascade_correctness_witness :
    (resolveAll exEnv ("LIBA", "37") exDirs = some exMap ∧ exDirs.Nodup ∧
      ["sub1"] ∈ exDirs ∧ (["sub1"] : DirPath) ≠ []) ∧
    (alookup ([] : DirPath) exMap = some ("LIBA", "37") ∧
    (exEnv ["sub1"] = none →
      alookup ["sub1"] exMap = alookup (["sub1"] : DirPath).dropLast exMap) ∧
    (∀ j, exEnv ["sub1"] = some j → ∃ pc,
      alookup (["sub1"] : DirPath).dropLast exMap = some pc ∧
      alookup ["sub1"] exMap = some (j.objlib.getD pc.1, j.tgtCcsid.getD pc.2))) :=
  ⟨⟨by decide, by decide, by decide, by decide⟩,
    c1_cascade_correctness exEnv ("LIBA", "37") exDirs exMap ["sub1"]
      (by decide) (by decide) (by decide) (by decide)⟩

def envNone : DirPath → Option IbmiJson := fun _ => none

/-- C6 fails as stated: when the only discovered build-unit directory is
`a/b` (its parent `a` holds no rule file and is not discovered), depth
order still processes `a/b` first, but its parent has no entry in the
resolved map at that point: resolution reads an unresolved ancestor and
the whole pass aborts (Python raises `KeyError`; here the result is
`none`). -/
theorem c6_counterexample :
    resolveAll envNone ("LIBA", "37") [["a", "b"]] = none := by
  decide

/-- C6 amended: directories are processed in non-decreasing depth, and
when every discovered non-root directory's parent is the root or is itself
discovered, resolution succeeds (each parent's entry exists when read) and
any two processing orders respecting non-decreasing depth produce resolved
maps with identical lookups. -/
theorem c6_depth_ordering (env : DirPath → Option IbmiJson) (root : Cfg)
    (dirs : List DirPath) (hnd : dirs.Nodup)
    (hclo : ∀ d, d ∈ dirs → d ≠ [] → d.dropLast = [] ∨ d.dropLast ∈ dirs) :
    List.Sorted depthLE (List.insertionSort depthLE dirs) ∧
    (∃ m, resolveAll env root dirs = some m) ∧
    (∀ l₁ l₂ m₁ m₂, l₁.Perm dirs → l₂.Perm dirs →
      List.Sorted depthLE l₁ → List.Sorted depthLE l₂ →
      resolveSteps env l₁ [([], root)] = some m₁ →
      resolveSteps env l₂ [([], root)] = some m₂ →
      ∀ q, alookup q m₁ = alookup q m₂) := by
  have hperm := List.perm_insertionSort depthLE dirs
  refine ⟨List.sorted_insertionSort depthLE dirs, ?_, ?_⟩
  · rw [resolveAll]
    refine resolveSteps_success env _ _ (List.sorted_insertionSort depthLE dirs)
      ⟨root, by simp [alookup]⟩ ?_
    intro d hd hdne
    rcases hclo d (hperm.mem_iff.1 hd) hdne with hroot | hin
    · refine Or.inl ⟨root, ?_⟩
      rw [hroot]
      simp [alookup]
    · exact Or.inr (hperm.mem_iff.2 hin)
  · intro l₁ l₂ m₁ m₂ hp₁ hp₂ hs₁ hs₂ hr₁ hr₂ q
    rw [resolveSteps_lookup_eq_spec env root dirs l₁ m₁ hp₁ hs₁ hnd hr₁ q,
      resolveSteps_lookup_eq_spec env root dirs l₂ m₂ hp₂ hs₂ hnd hr₂ q]

theorem c6_depth_ordering_witness :
    (exDirs.Nodup ∧
      ∀ d, d ∈ exDirs → d ≠ [] → d.dropLast = [] ∨ d.dropLast ∈ exDirs) ∧
    (List.Sorted depthLE (List.insertionSort depthLE exDirs) ∧
    (∃ m, resolveAll exEnv ("LIBA", "37") exDirs = some m) ∧
    (∀ l₁ l₂ m₁ m₂, l₁.Perm exDirs → l₂.Perm exDirs →
      List.Sorted depthLE l₁ → List.Sorted depthLE l₂ →
      resolveSteps exEnv l₁ [([], ("LIBA", "37"))] = some m₁ →
      resolveSteps exEnv l₂ [([], ("LIBA", "37"))] = some m₂ →
      ∀ q, alookup q m₁ = alookup q m₂)) :=
  ⟨⟨by decide, by decide⟩,
    c6_depth_ordering exEnv ("LIBA", "37") exDirs (by decide) (by decide)⟩
